import Mathlib

/-!
Verification of the `timeseries` storage engine (Go package `timeseries`,
file `unnamed/part_000`).

The engine stores CBOR-encoded records in one file per calendar minute, under
paths `root/YYYY/MM/DD/HH/mm.cbor`, with an in-memory existence cache, and
exposes `Init`, `Store`, `Get`, `Find`, `Delete`.

Shallow embedding conventions:

* A `time.Time` value (always UTC in this development) is modelled as a `Nat`:
  the number of nanoseconds since Go's zero time (January 1, year 1, 00:00:00
  UTC).  Go's `Truncate(time.Minute)` rounds down to a multiple of a minute
  since the zero time, `Add(time.Minute)` adds `60e9` nanoseconds, and
  `Before` is `<` on instants.  The calendar accessors `Year()`, `Month()`,
  `Day()`, `Hour()`, `Minute()` and the constructor `time.Date(..., UTC)` are
  modelled by the proleptic-Gregorian arithmetic below (`civil`, `goDate`).
  Times before the zero time and the far-future overflow of `int64`
  nanoseconds are outside the modelled domain.
* A filesystem path is a list of segments (`FsPath`), each segment a list of
  character codes (`Seg`).  `filepath.Join`, `Rel`, `Dir`, `Base` on clean
  slash-separated paths are the corresponding list operations.
* The filesystem is an association list from bucket paths to the decoded
  record stream of the bucket file (`FS`).  Directories are not represented:
  `os.MkdirAll` and `cleanEmptyDirs` create and remove only directories, never
  bucket files, so they act as the identity on this representation.
* The external CBOR codec is represented only by the byte length of an
  encoding (`encLen`), which is all `Store`'s write-verification observes; a
  bucket file's content is kept as its list of decoded records (the spec
  declares the codec an external collaborator producing a self-delimiting
  concatenation of records).  Decode errors on corrupt streams are therefore
  not represented: every modelled bucket decodes cleanly, and `Find`/`Get`
  are total.
* I/O failures other than `os.IsNotExist` (permissions, disk errors) are not
  modelled; the code propagates them verbatim and no claim concerns them.
-/

namespace Timeseries

/-- Nanoseconds per minute (`time.Minute` in Go). -/
def nsPerMinute : Nat := 60000000000

/-- `t.Truncate(time.Minute)`: round an instant down to a whole minute since
the zero time. -/
def truncMinute (t : Nat) : Nat := t / nsPerMinute * nsPerMinute

/-- Go `isLeap`: proleptic Gregorian leap-year rule. -/
def isLeap (y : Nat) : Bool := y % 4 == 0 && (y % 100 != 0 || y % 400 == 0)

/-- Days in year `y`. -/
def daysInYear (y : Nat) : Nat := if isLeap y then 366 else 365

/-- Number of leap years in `[1, n]`. -/
def leapsUpTo (n : Nat) : Nat := n / 4 - n / 100 + n / 400

/-- Days from the zero time (Jan 1, year 1) to Jan 1 of year `y` (for
`y ≥ 1`). -/
def daysBeforeYear (y : Nat) : Nat := 365 * (y - 1) + leapsUpTo (y - 1)

/-- Month lengths for a (non-)leap year, January first. -/
def monthLengths (leap : Bool) : List Nat :=
  [31, if leap then 29 else 28, 31, 30, 31, 30, 31, 31, 30, 31, 30, 31]

/-- Days from Jan 1 to the first day of month `mo` (1-based) in a year with
leap flag `leap`. -/
def daysBeforeMonth (leap : Bool) (mo : Nat) : Nat :=
  ((monthLengths leap).take (mo - 1)).sum

/-- Walk a list of month lengths, consuming days: returns the (1-based) month
reached and the remaining day-of-month offset. -/
def monthIter : List Nat → Nat → Nat → Nat × Nat
  | [], mo, d => (mo, d)
  | len :: rest, mo, d => if d < len then (mo, d) else monthIter rest (mo + 1) (d - len)

/-- Walk years upward from `y`, consuming days; fuel-based so that the
function reduces definitionally (any fuel `> d` gives the fixpoint). -/
def yearIter : Nat → Nat → Nat → Nat × Nat
  | 0, y, d => (y, d)
  | f + 1, y, d => if d < daysInYear y then (y, d) else yearIter f (y + 1) (d - daysInYear y)

/-- Calendar decomposition of an instant: `(year, month, day, hour, minute)`,
as returned by Go's `Year()`, `Month()`, `Day()`, `Hour()`, `Minute()` on a
UTC time. -/
def civil (t : Nat) : Nat × Nat × Nat × Nat × Nat :=
  let M := t / nsPerMinute
  let H := M / 60
  let day := H / 24
  let yr := yearIter (day + 1) 1 day
  let md := monthIter (monthLengths (isLeap yr.1)) 1 yr.2
  (yr.1, md.1, md.2 + 1, H % 24, M % 60)

/-- `t.Year()`. -/
def yearOf (t : Nat) : Nat := (civil t).1

/-- `t.Month()`. -/
def monthOf (t : Nat) : Nat := (civil t).2.1

/-- `t.Day()`. -/
def dayOf (t : Nat) : Nat := (civil t).2.2.1

/-- `t.Hour()`. -/
def hourOf (t : Nat) : Nat := (civil t).2.2.2.1

/-- `t.Minute()`. -/
def minuteOf (t : Nat) : Nat := (civil t).2.2.2.2

/-- `time.Date(y, mo, d, h, min, 0, 0, time.UTC)` as an instant.  Go
normalizes an out-of-range month by carrying into the year; day, hour and
minute flow directly into the day/since-midnight arithmetic.  (Go also
accepts zero and negative field values through `int` arithmetic; the paths
this development feeds to `time.Date` always carry fields `≥ 1` for year,
month and day, which is the domain modelled here.) -/
def goDate (y mo d h min : Nat) : Nat :=
  let y' := y + (mo - 1) / 12
  let mo' := (mo - 1) % 12 + 1
  (((daysBeforeYear y' + daysBeforeMonth (isLeap y') mo' + (d - 1)) * 24 + h) * 60 + min)
    * nsPerMinute

/-! ### Decimal numerals and path segments

Path segments are lists of character codes.  `fmtPad w n` is Go's
`fmt.Sprintf` with verb `%0wd` on a non-negative value; `atoi` is
`strconv.Atoi` restricted to unsigned numerals (the decoded paths contain no
sign characters; a signed numeral would make Go normalize negative calendar
fields, a corner outside the modelled domain and unreachable from any
claim). -/

/-- A path segment: a list of character codes. -/
abbrev Seg := List Nat

/-- A slash-separated path, as its list of segments. -/
abbrev FsPath := List Seg

/-- Little-endian decimal digits of `n` (empty for `0`), fuel-based. -/
def digitsLEF : Nat → Nat → List Nat
  | 0, _ => []
  | f + 1, n => if n = 0 then [] else n % 10 :: digitsLEF f (n / 10)

/-- Big-endian decimal digit list of `n` (with `[0]` for `0`). -/
def natToDigits (n : Nat) : List Nat :=
  if n = 0 then [0] else (digitsLEF n n).reverse

/-- Left-pad a digit list with zeros to width `w`. -/
def padZeros (w : Nat) (ds : List Nat) : List Nat :=
  List.replicate (w - ds.length) 0 ++ ds

/-- `fmt.Sprintf` with verb `%0wd`: the zero-padded decimal numeral of `n`,
as character codes. -/
def fmtPad (w n : Nat) : Seg :=
  (padZeros w (natToDigits n)).map (fun d => 48 + d)

/-- Numeric value of a big-endian digit list. -/
def denoteDigits (ds : List Nat) : Nat :=
  ds.foldl (fun a d => 10 * a + d) 0

/-- `strconv.Atoi` on an unsigned numeral: every character must be a decimal
digit and the string must be non-empty. -/
def atoi (s : Seg) : Option Nat :=
  if s ≠ [] ∧ s.all (fun c => 48 ≤ c ∧ c ≤ 57) then
    some (s.foldl (fun a c => 10 * a + (c - 48)) 0)
  else none

/-- The `.cbor` file extension, as character codes. -/
def cborExt : Seg := [46, 99, 98, 111, 114]

/-- `Client.timeToPath`: `filepath.Join(root, %04d year, %02d month,
%02d day, %02d hour, %02d.cbor minute)`. -/
def timeToPath (root : FsPath) (t : Nat) : FsPath :=
  root ++ [fmtPad 4 (yearOf t), fmtPad 2 (monthOf t), fmtPad 2 (dayOf t),
    fmtPad 2 (hourOf t), fmtPad 2 (minuteOf t) ++ cborExt]

/-- `Client.parsePathToTime`: take the path relative to the root
(`filepath.Rel`; a path not under the root yields relative segments that fail
the shape check), split off the file name, require exactly four directory
segments, parse year/month/day/hour and the minute from the file name with
its last five characters (the extension) removed, and rebuild the instant
with `time.Date(..., time.UTC)`. -/
def parsePathToTime (root : FsPath) (p : FsPath) : Option Nat :=
  if root.isPrefixOf p then
    match (p.drop root.length).dropLast, (p.drop root.length).getLast? with
    | [ys, ms, ds, hs], some filename =>
      match atoi ys, atoi ms, atoi ds, atoi hs,
          atoi (filename.take (filename.length - 5)) with
      | some y, some mo, some d, some h, some mi => some (goDate y mo d h mi)
      | _, _, _, _, _ => none
    | _, _ => none
  else none

/-! ### The storage engine

`type Client[T any] struct { Cache map[int]*[12][31][24][60]struct{}; Opts Options }`.

The Go cache value type is `struct{}`, Go's unit type: the four-dimensional
array `[12][31][24][60]struct{}` holds no information, the element assignment
in `setCache` stores a unit value, and the comparison `== struct{}{}` in
`getCache` is between unit values and therefore always true.  The observable
state of the cache is exactly the set of years whose page pointer is non-nil,
which is what the model records. -/

/-- One stored record: `Entry[T] { Time time.Time; Data T }`. -/
structure Entry (T : Type) where
  Time : Nat
  Data : T
deriving DecidableEq, Repr

/-- `Options { Debug, PrintMemory bool; Path string }`.  `Path` is kept as
segments; the empty string is `[]`.  `Debug`/`PrintMemory` only control the
background memory reporter, which performs no engine-state access. -/
structure Options where
  Debug : Bool
  PrintMemory : Bool
  Path : FsPath
deriving DecidableEq, Repr

/-- The filesystem: bucket paths with the decoded record stream of each
bucket file.  Absent key = the file does not exist. -/
abbrev FS (T : Type) := List (FsPath × List (Entry T))

/-- The engine state.  `Cache` is the set of years with an allocated page
(see the section comment). -/
structure Client (T : Type) where
  Cache : List Nat
  Opts : Options
deriving DecidableEq, Repr

/-- File lookup (first match). -/
def fsLookup {T : Type} : FS T → FsPath → Option (List (Entry T))
  | [], _ => none
  | (q, l) :: rest, p => if q = p then some l else fsLookup rest p

/-- Append one record to a bucket file, creating it if absent
(`os.OpenFile` with `O_APPEND|O_CREATE`). -/
def fsAppend {T : Type} : FS T → FsPath → Entry T → FS T
  | [], p, e => [(p, [e])]
  | (q, l) :: rest, p, e =>
    if q = p then (q, l ++ [e]) :: rest else (q, l) :: fsAppend rest p e

/-- Remove a bucket file (`os.Remove`; removing an absent file is the
identity here, matching the tolerated `os.IsNotExist`). -/
def fsRemove {T : Type} : FS T → FsPath → FS T
  | [], _ => []
  | (q, l) :: rest, p => if q = p then fsRemove rest p else (q, l) :: fsRemove rest p

/-- `Client.setCache`: allocate the year page if it is nil, then write a unit
value into the bitmap (a no-op on the modelled state, see above). -/
def setCache (cache : List Nat) (t : Nat) : List Nat :=
  if yearOf t ∈ cache then cache else yearOf t :: cache

/-- `Client.getCache`: a nil year page answers `false`; otherwise the
comparison of unit values answers `true`. -/
def getCache (cache : List Nat) (t : Nat) : Bool :=
  yearOf t ∈ cache

/-- `Client.readFile`: open the bucket (an absent file yields no records),
stream-decode every record in file order, and keep those whose full-precision
timestamp `ts` satisfies `lo ≤ ts ≤ hi` (`Equal ∨ After` and
`Equal ∨ Before`). -/
def readFile {T : Type} (fs : FS T) (p : FsPath) (lo hi : Nat) : List (Entry T) :=
  match fsLookup fs p with
  | none => []
  | some l => l.filter (fun e => lo ≤ e.Time ∧ e.Time ≤ hi)

/-- The body of `Client.Find`'s minute loop, as a counted recursion: `k`
iterations starting at minute `cur`, stepping by one minute.  Each iteration
consults the cache; on a miss it falls back to `os.Stat`, skipping the minute
only when the file is absent and reconciling the cache when it exists; then
it reads the bucket.  Returns the final cache and the concatenated visit
list. -/
def findLoop {T : Type} (root : FsPath) (fs : FS T) (lo hi : Nat) :
    List Nat → Nat → Nat → List Nat × List (Entry T)
  | cache, _, 0 => (cache, [])
  | cache, cur, k + 1 =>
    let path := timeToPath root cur
    if getCache cache cur then
      let r := findLoop root fs lo hi cache (cur + nsPerMinute) k
      (r.1, readFile fs path lo hi ++ r.2)
    else
      match fsLookup fs path with
      | none => findLoop root fs lo hi cache (cur + nsPerMinute) k
      | some _ =>
        let r := findLoop root fs lo hi (setCache cache cur) (cur + nsPerMinute) k
        (r.1, readFile fs path lo hi ++ r.2)

/-- `Client.Find`: iterate minute buckets from `truncate(lo)` while strictly
before `truncate(hi) + 1min`.  The Go `for current.Before(toTrunc)` loop with
a one-minute step runs exactly `(toTrunc - fromTrunc) / 1min` iterations
(truncated subtraction: zero when the window is empty).  Returns the updated
client and the visit calls in order; the only error paths of the Go code are
decode/IO failures, which the model excludes (see the header). -/
def Find {T : Type} (c : Client T) (fs : FS T) (lo hi : Nat) :
    Client T × List (Entry T) :=
  let fromTrunc := truncMinute lo
  let toTrunc := truncMinute hi + nsPerMinute
  let r := findLoop c.Opts.Path fs lo hi c.Cache fromTrunc ((toTrunc - fromTrunc) / nsPerMinute)
  ({ c with Cache := r.1 }, r.2)

/-- `Client.Get`: collect each visited record's payload (each copied into a
fresh allocation in Go) in visit order. -/
def Get {T : Type} (c : Client T) (fs : FS T) (lo hi : Nat) : Client T × List T :=
  let r := Find c fs lo hi
  (r.1, r.2.map (fun e => e.Data))

/-- The body of `Client.Delete`'s minute loop, as a counted recursion.  A
minute whose cache reports absence is skipped with no disk check; otherwise
the bucket file is removed (absence tolerated), `setCache` is called (the
code sets the bit rather than clearing it), and `cleanEmptyDirs` prunes empty
parent directories (directory-only: identity on the modelled filesystem). -/
def deleteLoop {T : Type} (root : FsPath) :
    List Nat → FS T → Nat → Nat → List Nat × FS T
  | cache, fs, _, 0 => (cache, fs)
  | cache, fs, cur, k + 1 =>
    if getCache cache cur then
      let path := timeToPath root cur
      deleteLoop root (setCache cache cur) (fsRemove fs path) (cur + nsPerMinute) k
    else
      deleteLoop root cache fs (cur + nsPerMinute) k

/-- `Client.Delete`: iterate minute buckets from `truncate(lo)` while
strictly before `truncate(hi)` (half-open window, no `+ 1min`). -/
def Delete {T : Type} (c : Client T) (fs : FS T) (lo hi : Nat) :
    Client T × FS T :=
  let fromTrunc := truncMinute lo
  let toTrunc := truncMinute hi
  let r := deleteLoop c.Opts.Path c.Cache fs fromTrunc ((toTrunc - fromTrunc) / nsPerMinute)
  ({ c with Cache := r.1 }, r.2)

/-- `Client.Store`, parameterized by the external codec's encoded length
`encLen` and by the byte count `wrote` that `f.Write` reports.  The record
(with the full-precision timestamp) is appended to the bucket of the
truncated timestamp; if the reported count differs from the encoded length
the verification error is returned and `setCache` is never reached.  On a
short write Go leaves a prefix of the encoding in the file; the model keeps
the write attempt at record granularity (no claim reads a bucket after a
failed write). -/
def Store {T : Type} (encLen : Entry T → Nat) (c : Client T) (fs : FS T)
    (wrote : Nat) (date : Nat) (data : T) : Option String × Client T × FS T :=
  let truncated := truncMinute date
  let path := timeToPath c.Opts.Path truncated
  let entry : Entry T := ⟨date, data⟩
  let fs' := fsAppend fs path entry
  if wrote ≠ encLen entry then
    (some "write verification failed: bytes written != encoded length", c, fs')
  else
    (none, { c with Cache := setCache c.Cache truncated }, fs')

/-- `Store` for a write where the operating system reports the full encoded
length written — the only behaviour a lossless model of `File.Write` can
produce, and the path every claim but the verification claim exercises. -/
def StoreOk {T : Type} (encLen : Entry T → Nat) (c : Client T) (fs : FS T)
    (date : Nat) (data : T) : Option String × Client T × FS T :=
  Store encLen c fs (encLen ⟨date, data⟩) date data

/-- Does the last path segment carry extension `.cbor` (`filepath.Ext`)? -/
def hasCborExt (p : FsPath) : Bool :=
  match p.getLast? with
  | none => false
  | some s => cborExt.isSuffixOf s && s.length != cborExt.length

/-- `Client.buildCache`: walk the tree under the root (`filepath.Walk`
visits only paths under the root; a non-existent root yields an empty walk),
and for every file with the bucket extension whose path parses, set the
cache.  Files that fail to parse are skipped. -/
def buildCache {T : Type} (root : FsPath) (disk : FS T) : List Nat :=
  disk.foldl
    (fun cache kv =>
      if root.isPrefixOf kv.1 ∧ hasCborExt kv.1 then
        match parsePathToTime root kv.1 with
        | some t => setCache cache t
        | none => cache
      else cache)
    []

/-- `Init`: allocate an empty cache, then populate it from disk only when
the path option is non-empty.  (The Go function's only error source is a
failing directory walk, an I/O failure outside the model; the optional debug
goroutine touches no engine state.) -/
def Init (T : Type) (opts : Options) (disk : FS T) : Client T :=
  { Cache := if opts.Path ≠ [] then buildCache opts.Path disk else [],
    Opts := opts }

/-- Fold `StoreOk` over a batch of `(timestamp, payload)` pairs. -/
def storeAll {T : Type} (encLen : Entry T → Nat) :
    Client T → FS T → List (Nat × T) → Client T × FS T
  | c, fs, [] => (c, fs)
  | c, fs, (t, v) :: rest =>
    let r := StoreOk encLen c fs t v
    storeAll encLen r.2.1 r.2.2 rest

/-- Specification helper: the minutes `Find`/`Get` scan, in iteration
order — `truncate(lo) + i` minutes for `i` below the loop's trip count. -/
def scanMinutes (lo hi : Nat) : List Nat :=
  (List.range ((truncMinute hi + nsPerMinute - truncMinute lo) / nsPerMinute)).map
    (fun i => truncMinute lo + i * nsPerMinute)

/-! ### Lemmas: decimal numerals -/

theorem denoteDigits_append (l : List Nat) (d : Nat) :
    denoteDigits (l ++ [d]) = 10 * denoteDigits l + d := by
  simp [denoteDigits, List.foldl_append]

theorem denoteDigits_digitsLEF :
    ∀ f n, n ≤ f → denoteDigits (digitsLEF f n).reverse = n := by
  intro f
  induction f with
  | zero =>
    intro n hn
    interval_cases n
    simp [digitsLEF, denoteDigits]
  | succ f ih =>
    intro n hn
    by_cases h0 : n = 0
    · simp [digitsLEF, h0, denoteDigits]
    · have hdiv : n / 10 ≤ f := by
        have := Nat.div_lt_self (Nat.pos_of_ne_zero h0) (by norm_num : 1 < 10)
        omega
      have := ih (n / 10) hdiv
      simp only [digitsLEF, h0, if_false, List.reverse_cons]
      rw [denoteDigits_append, this]
      omega

theorem digitsLEF_lt_ten : ∀ f n d, d ∈ digitsLEF f n → d < 10 := by
  intro f
  induction f with
  | zero => intro n d hd; simp [digitsLEF] at hd
  | succ f ih =>
    intro n d hd
    by_cases h0 : n = 0
    · simp [digitsLEF, h0] at hd
    · simp only [digitsLEF, h0, if_false, List.mem_cons] at hd
      rcases hd with h | h
      · omega
      · exact ih _ _ h

theorem natToDigits_lt_ten (n d : Nat) (hd : d ∈ natToDigits n) : d < 10 := by
  unfold natToDigits at hd
  by_cases h0 : n = 0
  · simp [h0] at hd
    omega
  · simp only [h0, if_false, List.mem_reverse] at hd
    exact digitsLEF_lt_ten _ _ _ hd

theorem natToDigits_ne_nil (n : Nat) : natToDigits n ≠ [] := by
  unfold natToDigits
  by_cases h0 : n = 0
  · simp [h0]
  · simp only [h0, if_false]
    have h1 : 1 ≤ n := Nat.pos_of_ne_zero h0
    match n, h1 with
    | n + 1, _ => simp [digitsLEF]

theorem denoteDigits_natToDigits (n : Nat) : denoteDigits (natToDigits n) = n := by
  unfold natToDigits
  by_cases h0 : n = 0
  · simp [h0, denoteDigits]
  · simp only [h0, if_false]
    exact denoteDigits_digitsLEF n n le_rfl

theorem denoteDigits_padZeros (w : Nat) (ds : List Nat) :
    denoteDigits (padZeros w ds) = denoteDigits ds := by
  unfold padZeros denoteDigits
  generalize w - ds.length = k
  induction k with
  | zero => simp
  | succ k ih => simpa [List.replicate_succ] using ih

theorem atoi_fmtPad (w n : Nat) : atoi (fmtPad w n) = some n := by
  have hne : fmtPad w n ≠ [] := by
    unfold fmtPad padZeros
    intro h
    rcases List.map_eq_nil_iff.mp h with h'
    rcases List.append_eq_nil.mp h' with ⟨-, h2⟩
    exact natToDigits_ne_nil n h2
  have hmem : ∀ d ∈ padZeros w (natToDigits n), d < 10 := by
    intro d hd
    unfold padZeros at hd
    rcases List.mem_append.mp hd with h | h
    · have := List.eq_of_mem_replicate h
      omega
    · exact natToDigits_lt_ten n d h
  have hall : (fmtPad w n).all (fun c => decide (48 ≤ c ∧ c ≤ 57)) = true := by
    rw [List.all_eq_true]
    intro c hc
    unfold fmtPad at hc
    rcases List.mem_map.mp hc with ⟨d, hd, rfl⟩
    have := hmem d hd
    simp
    omega
  have hfold : ∀ (l : List Nat), (∀ d ∈ l, d < 10) → ∀ a,
      (l.map (fun d => 48 + d)).foldl (fun a c => 10 * a + (c - 48)) a =
      l.foldl (fun a d => 10 * a + d) a := by
    intro l
    induction l with
    | nil => intro _ a; rfl
    | cons x xs ih =>
      intro hl a
      have hx := hl x (List.mem_cons_self x xs)
      simp only [List.map_cons, List.foldl_cons]
      rw [ih (fun d hd => hl d (List.mem_cons_of_mem x hd))]
      congr 1
      omega
  unfold atoi
  rw [if_pos ⟨hne, hall⟩]
  congr 1
  unfold fmtPad
  rw [hfold _ hmem]
  show denoteDigits (padZeros w (natToDigits n)) = n
  rw [denoteDigits_padZeros, denoteDigits_natToDigits]

/-! ### Lemmas: the Gregorian calendar arithmetic -/

theorem isLeap_iff (y : Nat) :
    isLeap y = true ↔ (y % 4 = 0 ∧ (y % 100 ≠ 0 ∨ y % 400 = 0)) := by
  unfold isLeap
  simp [Bool.and_eq_true, Bool.or_eq_true]

theorem leapsUpTo_succ (n : Nat) :
    leapsUpTo (n + 1) = leapsUpTo n + (if isLeap (n + 1) then 1 else 0) := by
  unfold leapsUpTo
  by_cases l : isLeap (n + 1)
  · rw [if_pos l]
    rw [isLeap_iff] at l
    omega
  · rw [if_neg l]
    rw [isLeap_iff] at l
    push_neg at l
    omega

theorem daysBeforeYear_one : daysBeforeYear 1 = 0 := rfl

theorem daysBeforeYear_succ (y : Nat) (hy : 1 ≤ y) :
    daysBeforeYear (y + 1) = daysBeforeYear y + daysInYear y := by
  unfold daysBeforeYear daysInYear
  obtain ⟨m, rfl⟩ : ∃ m, y = m + 1 := ⟨y - 1, by omega⟩
  simp only [Nat.add_sub_cancel]
  rw [leapsUpTo_succ m]
  by_cases l : isLeap (m + 1) <;> simp [l] <;> ring

theorem daysInYear_pos (y : Nat) : 365 ≤ daysInYear y := by
  unfold daysInYear
  split <;> omega

theorem yearIter_spec :
    ∀ f y d, d < f → 1 ≤ y →
      (yearIter f y d).2 < daysInYear (yearIter f y d).1 ∧
      1 ≤ (yearIter f y d).1 ∧
      daysBeforeYear (yearIter f y d).1 + (yearIter f y d).2 = daysBeforeYear y + d := by
  intro f
  induction f with
  | zero => intro y d hd; omega
  | succ f ih =>
    intro y d hd hy
    by_cases h : d < daysInYear y
    · simp only [yearIter, if_pos h]
      exact ⟨h, hy, trivial⟩
    · simp only [yearIter, if_neg h]
      have h365 := daysInYear_pos y
      have hrec := ih (y + 1) (d - daysInYear y) (by omega) (by omega)
      refine ⟨hrec.1, hrec.2.1, ?_⟩
      rw [hrec.2.2, daysBeforeYear_succ y hy]
      omega

theorem monthIter_spec :
    ∀ (ls : List Nat) mo d, d < ls.sum →
      mo ≤ (monthIter ls mo d).1 ∧
      (monthIter ls mo d).1 < mo + ls.length ∧
      (ls.take ((monthIter ls mo d).1 - mo)).sum + (monthIter ls mo d).2 = d := by
  intro ls
  induction ls with
  | nil => intro mo d hd; simp at hd
  | cons len rest ih =>
    intro mo d hd
    by_cases h : d < len
    · simp only [monthIter, if_pos h]
      simp
    · simp only [monthIter, if_neg h]
      have hsum : d - len < rest.sum := by
        simp only [List.sum_cons] at hd
        omega
      have hrec := ih (mo + 1) (d - len) hsum
      refine ⟨by omega, by simp; omega, ?_⟩
      have hge : mo + 1 ≤ (monthIter rest (mo + 1) (d - len)).1 := hrec.1
      have htake : (monthIter rest (mo + 1) (d - len)).1 - mo =
          ((monthIter rest (mo + 1) (d - len)).1 - (mo + 1)) + 1 := by omega
      rw [htake, List.take_succ_cons, List.sum_cons]
      omega

theorem sum_monthLengths (leap : Bool) :
    (monthLengths leap).sum = if leap then 366 else 365 := by
  cases leap <;> simp [monthLengths]

theorem goDate_civil (t : Nat) :
    goDate (yearOf t) (monthOf t) (dayOf t) (hourOf t) (minuteOf t) = truncMinute t := by
  unfold yearOf monthOf dayOf hourOf minuteOf civil truncMinute
  dsimp only
  rcases e1 : yearIter (t / nsPerMinute / 60 / 24 + 1) 1 (t / nsPerMinute / 60 / 24)
    with ⟨Y, doy⟩
  have hyr := yearIter_spec (t / nsPerMinute / 60 / 24 + 1) 1
    (t / nsPerMinute / 60 / 24) (by omega) le_rfl
  rw [e1] at hyr
  dsimp only at hyr ⊢
  obtain ⟨hdlt, hY1, hYsum⟩ := hyr
  have hdoy : doy < (monthLengths (isLeap Y)).sum := by
    rw [sum_monthLengths]
    unfold daysInYear at hdlt
    exact hdlt
  have hmd := monthIter_spec (monthLengths (isLeap Y)) 1 doy hdoy
  rcases e2 : monthIter (monthLengths (isLeap Y)) 1 doy with ⟨mo, dd⟩
  rw [e2] at hmd
  dsimp only at hmd ⊢
  obtain ⟨hmo1, hmo13, hmosum⟩ := hmd
  have hmo12 : mo ≤ 12 := by
    simp only [monthLengths, List.length] at hmo13
    omega
  unfold goDate
  dsimp only
  have hdiv0 : (mo - 1) / 12 = 0 := Nat.div_eq_of_lt (by omega)
  have hmod : (mo - 1) % 12 + 1 = mo := by
    rw [Nat.mod_eq_of_lt (by omega)]
    omega
  rw [hdiv0, hmod, Nat.add_zero]
  have hbm : daysBeforeMonth (isLeap Y) mo + dd = doy := hmosum
  rw [daysBeforeYear_one] at hYsum
  have hinner : daysBeforeYear Y + daysBeforeMonth (isLeap Y) mo + (dd + 1 - 1) =
      t / nsPerMinute / 60 / 24 := by omega
  rw [hinner]
  have hlin : (t / nsPerMinute / 60 / 24 * 24 + t / nsPerMinute / 60 % 24) * 60 +
      t / nsPerMinute % 60 = t / nsPerMinute := by omega
  rw [hlin]

/-! ### Lemmas: the path codec round trip -/

theorem isPrefixOf_append (root rest : FsPath) : root.isPrefixOf (root ++ rest) = true := by
  induction root with
  | nil => simp [List.isPrefixOf]
  | cons s segs ih => simp [List.isPrefixOf, ih]

theorem parsePathToTime_timeToPath (root : FsPath) (t : Nat) :
    parsePathToTime root (timeToPath root t) = some (truncMinute t) := by
  unfold parsePathToTime timeToPath
  rw [if_pos]
  · rw [List.drop_left]
    have hfile : (fmtPad 2 (minuteOf t) ++ cborExt).take
        ((fmtPad 2 (minuteOf t) ++ cborExt).length - 5) = fmtPad 2 (minuteOf t) := by
      have hlen : (fmtPad 2 (minuteOf t) ++ cborExt).length =
          (fmtPad 2 (minuteOf t)).length + 5 := by
        simp [cborExt]
      rw [hlen]
      have h55 : (fmtPad 2 (minuteOf t)).length + 5 - 5 = (fmtPad 2 (minuteOf t)).length := by
        omega
      rw [h55, List.take_left]
    have hlast : ([fmtPad 4 (yearOf t), fmtPad 2 (monthOf t), fmtPad 2 (dayOf t),
        fmtPad 2 (hourOf t), fmtPad 2 (minuteOf t) ++ cborExt] : FsPath).getLast? =
        some (fmtPad 2 (minuteOf t) ++ cborExt) := by
      simp
    have hdrop : ([fmtPad 4 (yearOf t), fmtPad 2 (monthOf t), fmtPad 2 (dayOf t),
        fmtPad 2 (hourOf t), fmtPad 2 (minuteOf t) ++ cborExt] : FsPath).dropLast =
        [fmtPad 4 (yearOf t), fmtPad 2 (monthOf t), fmtPad 2 (dayOf t),
        fmtPad 2 (hourOf t)] := by
      simp
    rw [hdrop, hlast]
    simp only [hfile, atoi_fmtPad]
    rw [goDate_civil]
  · exact isPrefixOf_append root _

theorem timeToPath_inj (root : FsPath) (m₁ m₂ : Nat)
    (h₁ : truncMinute m₁ = m₁) (h₂ : truncMinute m₂ = m₂)
    (h : timeToPath root m₁ = timeToPath root m₂) : m₁ = m₂ := by
  have := congrArg (parsePathToTime root) h
  rw [parsePathToTime_timeToPath, parsePathToTime_timeToPath, h₁, h₂] at this
  exact Option.some.inj this

/-! ### Lemmas: filesystem and cache primitives -/

theorem fsLookup_fsAppend_self {T : Type} (fs : FS T) (p : FsPath) (e : Entry T) :
    fsLookup (fsAppend fs p e) p = some ((fsLookup fs p).getD [] ++ [e]) := by
  induction fs with
  | nil => simp [fsAppend, fsLookup]
  | cons kv rest ih =>
    obtain ⟨q, l⟩ := kv
    by_cases h : q = p
    · simp [fsAppend, fsLookup, h]
    · simp [fsAppend, fsLookup, h, ih]

theorem fsLookup_fsAppend_other {T : Type} (fs : FS T) (p q : FsPath) (e : Entry T)
    (h : q ≠ p) : fsLookup (fsAppend fs p e) q = fsLookup fs q := by
  induction fs with
  | nil =>
    show fsLookup [(p, [e])] q = none
    show (if p = q then some [e] else none) = none
    rw [if_neg (Ne.symm h)]
  | cons kv rest ih =>
    obtain ⟨r, l⟩ := kv
    show fsLookup (if r = p then (r, l ++ [e]) :: rest else (r, l) :: fsAppend rest p e) q =
      if r = q then some l else fsLookup rest q
    by_cases hr : r = p
    · rw [if_pos hr]
      subst hr
      show (if r = q then some (l ++ [e]) else fsLookup rest q) =
        if r = q then some l else fsLookup rest q
      rw [if_neg (Ne.symm h), if_neg (Ne.symm h)]
    · rw [if_neg hr]
      show (if r = q then some l else fsLookup (fsAppend rest p e) q) =
        if r = q then some l else fsLookup rest q
      rw [ih]

theorem fsLookup_fsRemove_self {T : Type} (fs : FS T) (p : FsPath) :
    fsLookup (fsRemove fs p) p = none := by
  induction fs with
  | nil => rfl
  | cons kv rest ih =>
    obtain ⟨q, l⟩ := kv
    show fsLookup (if q = p then fsRemove rest p else (q, l) :: fsRemove rest p) p = none
    by_cases h : q = p
    · rw [if_pos h]
      exact ih
    · rw [if_neg h]
      show (if q = p then some l else fsLookup (fsRemove rest p) p) = none
      rw [if_neg h]
      exact ih

theorem fsLookup_fsRemove_other {T : Type} (fs : FS T) (p q : FsPath) (h : q ≠ p) :
    fsLookup (fsRemove fs p) q = fsLookup fs q := by
  induction fs with
  | nil => rfl
  | cons kv rest ih =>
    obtain ⟨r, l⟩ := kv
    show fsLookup (if r = p then fsRemove rest p else (r, l) :: fsRemove rest p) q =
      if r = q then some l else fsLookup rest q
    by_cases hr : r = p
    · rw [if_pos hr, ih, if_neg]
      intro hq
      exact h (hq ▸ hr)
    · rw [if_neg hr]
      show (if r = q then some l else fsLookup (fsRemove rest p) q) =
        if r = q then some l else fsLookup rest q
      rw [ih]

theorem getCache_setCache_self (cache : List Nat) (t : Nat) :
    getCache (setCache cache t) t = true := by
  unfold getCache setCache
  by_cases h : yearOf t ∈ cache <;> simp [h]

theorem setCache_of_getCache (cache : List Nat) (t : Nat) (h : getCache cache t = true) :
    setCache cache t = cache := by
  unfold getCache at h
  simp only [decide_eq_true_eq] at h
  unfold setCache
  rw [if_pos h]

theorem getCache_mono (cache : List Nat) (t u : Nat) (h : getCache cache t = true) :
    getCache (setCache cache u) t = true := by
  unfold getCache at h ⊢
  unfold setCache
  simp only [decide_eq_true_eq] at h ⊢
  split
  · exact h
  · exact List.mem_cons_of_mem _ h

theorem readFile_of_lookup_none {T : Type} (fs : FS T) (p : FsPath) (lo hi : Nat)
    (h : fsLookup fs p = none) : readFile fs p lo hi = [] := by
  unfold readFile
  rw [h]

theorem readFile_eq_filter {T : Type} (fs : FS T) (p : FsPath) (lo hi : Nat) :
    readFile fs p lo hi =
      ((fsLookup fs p).getD []).filter (fun e => lo ≤ e.Time ∧ e.Time ≤ hi) := by
  unfold readFile
  cases fsLookup fs p <;> simp

/-! ### Lemmas: the Find loop -/

theorem findLoop_visits {T : Type} (root : FsPath) (fs : FS T) (lo hi : Nat) :
    ∀ k cache cur,
      (findLoop root fs lo hi cache cur k).2 =
        ((List.range k).map (fun i => cur + i * nsPerMinute)).flatMap
          (fun m => readFile fs (timeToPath root m) lo hi) := by
  intro k
  induction k with
  | zero => intro cache cur; simp [findLoop]
  | succ k ih =>
    intro cache cur
    have hshift :
        ((List.range (k + 1)).map (fun i => cur + i * nsPerMinute)) =
          cur :: ((List.range k).map (fun i => (cur + nsPerMinute) + i * nsPerMinute)) := by
      rw [List.range_succ_eq_map, List.map_cons, List.map_map]
      congr 1
      apply List.map_congr_left
      intro i _
      show cur + (i + 1) * nsPerMinute = cur + nsPerMinute + i * nsPerMinute
      ring
    rw [hshift]
    simp only [List.flatMap_cons]
    unfold findLoop
    by_cases hc : getCache cache cur
    · simp only [hc, if_true]
      rw [ih]
    · simp only [hc, Bool.false_eq_true, if_false]
      cases hl : fsLookup fs (timeToPath root cur) with
      | none =>
        rw [readFile_of_lookup_none fs _ lo hi hl]
        simp only [List.nil_append]
        rw [ih]
      | some l =>
        simp only
        rw [ih]

theorem findLoop_cache_mono {T : Type} (root : FsPath) (fs : FS T) (lo hi : Nat) :
    ∀ k cache cur y, y ∈ cache → y ∈ (findLoop root fs lo hi cache cur k).1 := by
  intro k
  induction k with
  | zero => intro cache cur y hy; simpa [findLoop] using hy
  | succ k ih =>
    intro cache cur y hy
    unfold findLoop
    by_cases hc : getCache cache cur
    · simp only [hc, if_true]
      exact ih cache _ y hy
    · simp only [hc, Bool.false_eq_true, if_false]
      cases hl : fsLookup fs (timeToPath root cur) with
      | none => exact ih cache _ y hy
      | some l =>
        simp only
        apply ih
        unfold setCache
        split
        · exact hy
        · exact List.mem_cons_of_mem _ hy

theorem findLoop_cache_of_exists {T : Type} (root : FsPath) (fs : FS T) (lo hi : Nat) :
    ∀ k cache cur i l, i < k → fsLookup fs (timeToPath root (cur + i * nsPerMinute)) = some l →
      yearOf (cur + i * nsPerMinute) ∈ (findLoop root fs lo hi cache cur k).1 := by
  intro k
  induction k with
  | zero => intro cache cur i l hi'; omega
  | succ k ih =>
    intro cache cur i l hik hl
    unfold findLoop
    rcases Nat.eq_zero_or_pos i with rfl | hpos
    · simp only [Nat.zero_mul, Nat.add_zero] at hl ⊢
      by_cases hc : getCache cache cur
      · simp only [hc, if_true]
        unfold getCache at hc
        simp only [decide_eq_true_eq] at hc
        exact findLoop_cache_mono root fs lo hi k cache _ _ hc
      · simp only [hc, Bool.false_eq_true, if_false, hl]
        apply findLoop_cache_mono
        have hnotmem : yearOf cur ∉ cache := by
          intro hm
          apply hc
          unfold getCache
          simp [hm]
        unfold setCache
        rw [if_neg hnotmem]
        exact List.mem_cons_self _ _
    · obtain ⟨j, rfl⟩ : ∃ j, i = j + 1 := ⟨i - 1, by omega⟩
      have hstep : cur + (j + 1) * nsPerMinute = (cur + nsPerMinute) + j * nsPerMinute := by
        ring
      rw [hstep] at hl ⊢
      by_cases hc : getCache cache cur
      · simp only [hc, if_true]
        exact ih cache _ j l (by omega) hl
      · simp only [hc, Bool.false_eq_true, if_false]
        cases hl2 : fsLookup fs (timeToPath root cur) with
        | none => exact ih cache _ j l (by omega) hl
        | some l2 =>
          simp only
          exact ih _ _ j l (by omega) hl

/-! ### Lemmas: the Delete loop -/

theorem deleteLoop_cache {T : Type} (root : FsPath) :
    ∀ k (cache : List Nat) (fs : FS T) cur,
      (deleteLoop root cache fs cur k).1 = cache := by
  intro k
  induction k with
  | zero => intro cache fs cur; rfl
  | succ k ih =>
    intro cache fs cur
    unfold deleteLoop
    by_cases hc : getCache cache cur
    · simp only [hc, if_true]
      rw [setCache_of_getCache cache cur hc, ih]
    · simp only [hc, Bool.false_eq_true, if_false]
      exact ih cache fs _

theorem deleteLoop_none_preserved {T : Type} (root : FsPath) (p : FsPath) :
    ∀ k (cache : List Nat) (fs : FS T) cur, fsLookup fs p = none →
      fsLookup (deleteLoop root cache fs cur k).2 p = none := by
  intro k
  induction k with
  | zero => intro cache fs cur h; exact h
  | succ k ih =>
    intro cache fs cur h
    unfold deleteLoop
    by_cases hc : getCache cache cur
    · simp only [hc, if_true]
      apply ih
      by_cases hp : p = timeToPath root cur
      · rw [hp, fsLookup_fsRemove_self]
      · rw [fsLookup_fsRemove_other _ _ _ hp, h]
    · simp only [hc, Bool.false_eq_true, if_false]
      exact ih cache fs _ h

theorem deleteLoop_removes {T : Type} (root : FsPath) :
    ∀ k (cache : List Nat) (fs : FS T) cur i, i < k →
      getCache cache (cur + i * nsPerMinute) = true →
      fsLookup (deleteLoop root cache fs cur k).2
        (timeToPath root (cur + i * nsPerMinute)) = none := by
  intro k
  induction k with
  | zero => intro cache fs cur i hik; omega
  | succ k ih =>
    intro cache fs cur i hik hc
    unfold deleteLoop
    rcases Nat.eq_zero_or_pos i with rfl | hpos
    · simp only [Nat.zero_mul, Nat.add_zero] at hc ⊢
      simp only [hc, if_true]
      rw [setCache_of_getCache cache cur hc]
      apply deleteLoop_none_preserved
      exact fsLookup_fsRemove_self fs _
    · obtain ⟨j, rfl⟩ : ∃ j, i = j + 1 := ⟨i - 1, by omega⟩
      have hstep : cur + (j + 1) * nsPerMinute = (cur + nsPerMinute) + j * nsPerMinute := by
        ring
      rw [hstep] at hc ⊢
      by_cases hc0 : getCache cache cur
      · simp only [hc0, if_true]
        rw [setCache_of_getCache cache cur hc0]
        exact ih cache _ _ j (by omega) hc
      · simp only [hc0, Bool.false_eq_true, if_false]
        exact ih cache fs _ j (by omega) hc

theorem deleteLoop_preserves {T : Type} (root : FsPath) (p : FsPath) :
    ∀ k (cache : List Nat) (fs : FS T) cur,
      (∀ i, i < k → getCache cache (cur + i * nsPerMinute) = true →
        p ≠ timeToPath root (cur + i * nsPerMinute)) →
      fsLookup (deleteLoop root cache fs cur k).2 p = fsLookup fs p := by
  intro k
  induction k with
  | zero => intro cache fs cur _; rfl
  | succ k ih =>
    intro cache fs cur hp
    unfold deleteLoop
    by_cases hc : getCache cache cur
    · simp only [hc, if_true]
      rw [setCache_of_getCache cache cur hc]
      have hne : p ≠ timeToPath root cur := by
        have := hp 0 (by omega)
        simpa using this hc
      rw [ih cache _ _ ?later, fsLookup_fsRemove_other _ _ _ hne]
      case later =>
        intro i hik hci
        have := hp (i + 1) (by omega)
        rw [show cur + (i + 1) * nsPerMinute = (cur + nsPerMinute) + i * nsPerMinute by ring]
          at this
        exact this hci
    · simp only [hc, Bool.false_eq_true, if_false]
      apply ih
      intro i hik hci
      have := hp (i + 1) (by omega)
      rw [show cur + (i + 1) * nsPerMinute = (cur + nsPerMinute) + i * nsPerMinute by ring]
        at this
      exact this hci

/-! ### Lemmas: the scanned minute window -/

theorem mem_scanMinutes (lo hi m : Nat) :
    m ∈ scanMinutes lo hi ↔
      (truncMinute m = m ∧ truncMinute lo ≤ m ∧ m ≤ truncMinute hi) := by
  unfold scanMinutes truncMinute nsPerMinute
  simp only [List.mem_map, List.mem_range]
  constructor
  · rintro ⟨i, hik, rfl⟩
    omega
  · rintro ⟨hm, hlo, hhi⟩
    refine ⟨m / 60000000000 - lo / 60000000000, by omega, by omega⟩

theorem scanMinutes_sorted (lo hi : Nat) : (scanMinutes lo hi).Pairwise (· < ·) := by
  unfold scanMinutes
  rw [List.pairwise_map]
  apply List.Pairwise.imp ?_ (List.pairwise_lt_range _)
  intro i j hij
  have hmul : i * nsPerMinute < j * nsPerMinute :=
    Nat.mul_lt_mul_of_lt_of_le hij le_rfl (by unfold nsPerMinute; omega)
  omega

/-! ### Lemmas: truncation, Store, batches -/

theorem truncMinute_idem (t : Nat) : truncMinute (truncMinute t) = truncMinute t := by
  unfold truncMinute nsPerMinute
  omega

theorem truncMinute_mono (a b : Nat) (h : a ≤ b) : truncMinute a ≤ truncMinute b := by
  unfold truncMinute nsPerMinute
  omega

theorem storeOk_eq {T : Type} (encLen : Entry T → Nat) (c : Client T) (fs : FS T)
    (t : Nat) (v : T) :
    StoreOk encLen c fs t v =
      (none, { c with Cache := setCache c.Cache (truncMinute t) },
        fsAppend fs (timeToPath c.Opts.Path (truncMinute t)) ⟨t, v⟩) := by
  unfold StoreOk Store
  simp

theorem flatMap_single {α β : Type} [DecidableEq α] (l : List α) (f : α → List β) (a : α)
    (ha : a ∈ l) (hnd : l.Pairwise (· ≠ ·))
    (hother : ∀ b ∈ l, b ≠ a → f b = []) : l.flatMap f = f a := by
  induction l with
  | nil => cases ha
  | cons x xs ih =>
    rw [List.flatMap_cons]
    rcases List.mem_cons.mp ha with rfl | hxs
    · have hnil : xs.flatMap f = [] := by
        rw [List.flatMap_eq_nil_iff]
        intro b hb
        apply hother b (List.mem_cons_of_mem _ hb)
        intro hba
        exact (List.pairwise_cons.mp hnd).1 b hb hba.symm
      rw [hnil, List.append_nil]
    · have hx : f x = [] := by
        apply hother x (List.mem_cons_self _ _)
        intro hxa
        exact (List.pairwise_cons.mp hnd).1 a hxs hxa
      rw [hx, List.nil_append]
      exact ih hxs (List.pairwise_cons.mp hnd).2 (fun b hb => hother b (List.mem_cons_of_mem _ hb))

theorem storeAll_opts {T : Type} (encLen : Entry T → Nat) :
    ∀ (L : List (Nat × T)) (c : Client T) (fs : FS T),
      (storeAll encLen c fs L).1.Opts = c.Opts := by
  intro L
  induction L with
  | nil => intro c fs; rfl
  | cons hd tl ih =>
    intro c fs
    obtain ⟨t, v⟩ := hd
    show (storeAll encLen (StoreOk encLen c fs t v).2.1 (StoreOk encLen c fs t v).2.2 tl).1.Opts
      = c.Opts
    rw [ih]
    rw [storeOk_eq]

theorem storeAll_same_minute {T : Type} (encLen : Entry T → Nat) (m : Nat) :
    ∀ (L : List (Nat × T)) (c : Client T) (acc : List (Entry T)),
      (∀ tv ∈ L, truncMinute tv.1 = m) →
      (storeAll encLen c [(timeToPath c.Opts.Path m, acc)] L).2 =
        [(timeToPath c.Opts.Path m, acc ++ L.map (fun tv => ⟨tv.1, tv.2⟩))] := by
  intro L
  induction L with
  | nil => intro c acc _; simp [storeAll]
  | cons hd tl ih =>
    intro c acc hm
    obtain ⟨t, v⟩ := hd
    have htm : truncMinute t = m := hm (t, v) (List.mem_cons_self _ _)
    show (storeAll encLen (StoreOk encLen c _ t v).2.1 (StoreOk encLen c _ t v).2.2 tl).2 = _
    rw [storeOk_eq]
    simp only [htm]
    have happ : fsAppend [(timeToPath c.Opts.Path m, acc)] (timeToPath c.Opts.Path m)
        (⟨t, v⟩ : Entry T) = [(timeToPath c.Opts.Path m, acc ++ [⟨t, v⟩])] := by
      show (if timeToPath c.Opts.Path m = timeToPath c.Opts.Path m then _ else _) = _
      rw [if_pos rfl]
    rw [happ]
    have := ih { c with Cache := setCache c.Cache m } (acc ++ [⟨t, v⟩])
      (fun tv htv => hm tv (List.mem_cons_of_mem _ htv))
    simp only at this
    rw [this]
    simp

theorem delete_window_index (lo hi m : Nat) :
    (truncMinute m = m ∧ truncMinute lo ≤ m ∧ m < truncMinute hi) ↔
      ∃ i, i < (truncMinute hi - truncMinute lo) / nsPerMinute ∧
        m = truncMinute lo + i * nsPerMinute := by
  unfold truncMinute nsPerMinute
  constructor
  · rintro ⟨hm, hlo, hhi⟩
    exact ⟨m / 60000000000 - lo / 60000000000, by omega, by omega⟩
  · rintro ⟨i, hik, rfl⟩
    omega

/-! ### The claims -/

/-- Claim C5: for every timestamp `t`, decoding the path produced for `t`
gives back `t` truncated to minute precision:
`parsePathToTime (timeToPath t) = some (truncMinute t)`, for any root. -/
theorem path_roundtrip_minute (root : FsPath) (t : Nat) :
    parsePathToTime root (timeToPath root t) = some (truncMinute t) :=
  parsePathToTime_timeToPath root t

/-- Claim C4: `Find lo hi` visits, in order, exactly the records of the
minute buckets in the inclusive window `[truncate lo, truncate hi]` whose
full-precision timestamp `ts` satisfies `lo ≤ ts ≤ hi` (both bounds
inclusive, not truncated); the scanned minutes are exactly the whole minutes
of that inclusive window, in strictly ascending order, and the visit list is
independent of the cache (an existing bucket is read whether or not it is
cached; a cached-but-absent bucket contributes nothing). -/
theorem find_scans_inclusive_window {T : Type} (c : Client T) (fs : FS T) (lo hi : Nat) :
    (Find c fs lo hi).2 =
      (scanMinutes lo hi).flatMap
        (fun m => ((fsLookup fs (timeToPath c.Opts.Path m)).getD []).filter
          (fun e => lo ≤ e.Time ∧ e.Time ≤ hi)) ∧
    (scanMinutes lo hi).Pairwise (· < ·) ∧
    (∀ m, m ∈ scanMinutes lo hi ↔
      (truncMinute m = m ∧ truncMinute lo ≤ m ∧ m ≤ truncMinute hi)) := by
  refine ⟨?_, scanMinutes_sorted lo hi, fun m => mem_scanMinutes lo hi m⟩
  show (findLoop c.Opts.Path fs lo hi c.Cache (truncMinute lo)
    ((truncMinute hi + nsPerMinute - truncMinute lo) / nsPerMinute)).2 = _
  rw [findLoop_visits]
  unfold scanMinutes
  simp only [readFile_eq_filter]

/-- Claim C4 witness: an uncached bucket at minute 0 holding one record at
`t = 1000`, scanned over `[0, 2000]`. -/
theorem find_scans_inclusive_window_witness :
    (Find (⟨[], ⟨false, false, [[100]]⟩⟩ : Client Nat)
        [(timeToPath [[100]] 0, [⟨1000, 5⟩])] 0 2000).2 =
      (scanMinutes 0 2000).flatMap
        (fun m => ((fsLookup [(timeToPath [[100]] 0, [⟨1000, 5⟩])]
          (timeToPath [[100]] m)).getD []).filter
            (fun e => 0 ≤ e.Time ∧ e.Time ≤ 2000)) :=
  (find_scans_inclusive_window (⟨[], ⟨false, false, [[100]]⟩⟩ : Client Nat)
    [(timeToPath [[100]] 0, [⟨1000, 5⟩])] 0 2000).1

/-- Claim C6: during a range scan, a minute bucket inside the window that
exists on disk is read even when its cache bit is unset — its in-range
records appear in the visit list — and the cache is reconciled: after the
scan the cache reports the minute present. -/
theorem find_cache_fallback {T : Type} (c : Client T) (fs : FS T) (lo hi m : Nat)
    (l : List (Entry T))
    (hm : truncMinute m = m) (hlo : truncMinute lo ≤ m) (hhi : m ≤ truncMinute hi)
    (hdisk : fsLookup fs (timeToPath c.Opts.Path m) = some l)
    (hmiss : getCache c.Cache m = false) :
    getCache (Find c fs lo hi).1.Cache m = true ∧
    ∀ e ∈ l, lo ≤ e.Time → e.Time ≤ hi → e ∈ (Find c fs lo hi).2 := by
  have hmem : m ∈ scanMinutes lo hi := (mem_scanMinutes lo hi m).mpr ⟨hm, hlo, hhi⟩
  unfold scanMinutes at hmem
  simp only [List.mem_map, List.mem_range] at hmem
  obtain ⟨i, hik, rfl⟩ := hmem
  constructor
  · show getCache (findLoop c.Opts.Path fs lo hi c.Cache (truncMinute lo)
      ((truncMinute hi + nsPerMinute - truncMinute lo) / nsPerMinute)).1 _ = true
    unfold getCache
    simp only [decide_eq_true_eq]
    exact findLoop_cache_of_exists c.Opts.Path fs lo hi _ c.Cache _ i l hik hdisk
  · intro e hel helo hehi
    show e ∈ (findLoop c.Opts.Path fs lo hi c.Cache (truncMinute lo)
      ((truncMinute hi + nsPerMinute - truncMinute lo) / nsPerMinute)).2
    rw [findLoop_visits]
    rw [List.mem_flatMap]
    refine ⟨truncMinute lo + i * nsPerMinute, ?_, ?_⟩
    · simp only [List.mem_map, List.mem_range]
      exact ⟨i, hik, rfl⟩
    · rw [readFile_eq_filter, hdisk]
      simp only [Option.getD_some, List.mem_filter]
      exact ⟨hel, by simp [helo, hehi]⟩

/-- Claim C10: an inverted range (`hi` strictly before `lo`) makes `Find`
visit nothing (the in-range filter `lo ≤ ts ≤ hi` is unsatisfiable) and
`Get` return the empty sequence, for any engine state and any stored data;
neither operation has an error path in this situation (the modelled `Find`
and `Get` are total, their only Go error sources being decode/IO failures on
corrupt buckets, which well-formed bucket streams exclude). -/
theorem inverted_range_empty {T : Type} (c : Client T) (fs : FS T) (lo hi : Nat)
    (h : hi < lo) :
    (Find c fs lo hi).2 = [] ∧ (Get c fs lo hi).2 = [] := by
  have hfind : (Find c fs lo hi).2 = [] := by
    show (findLoop c.Opts.Path fs lo hi c.Cache (truncMinute lo)
      ((truncMinute hi + nsPerMinute - truncMinute lo) / nsPerMinute)).2 = []
    rw [findLoop_visits]
    rw [List.flatMap_eq_nil_iff]
    intro m _
    rw [readFile_eq_filter]
    rw [List.filter_eq_nil_iff]
    intro e _
    simp only [decide_eq_true_eq, not_and]
    intro h1 h2
    omega
  refine ⟨hfind, ?_⟩
  show ((Find c fs lo hi).2.map (fun e => e.Data)) = []
  rw [hfind]
  rfl

/-- Claim C1, counterexample: on an engine that already holds a record with
timestamp exactly `t` (here: one produced by an earlier `Store(t, 1)`),
`Store(t, 2)` followed by `Get(t, t)` returns two entries, not exactly one —
the claim as stated, quantifying over every engine, is false.  Concrete
input: root `"d"`, `t` = 30 seconds past the zero time, payloads `1` then
`2`. -/
theorem store_twice_get_two :
    (let el : Entry Nat → Nat := fun _ => 1
     let c0 := Init Nat ⟨false, false, [[100]]⟩ ([] : FS Nat)
     let s1 := StoreOk el c0 [] 30000000000 1
     let s2 := StoreOk el s1.2.1 s1.2.2 30000000000 2
     (Get s2.2.1 s2.2.2 30000000000 30000000000).2) = [1, 2] ∧
    ¬ (let el : Entry Nat → Nat := fun _ => 1
       let c0 := Init Nat ⟨false, false, [[100]]⟩ ([] : FS Nat)
       let s1 := StoreOk el c0 [] 30000000000 1
       let s2 := StoreOk el s1.2.1 s1.2.2 30000000000 2
       (Get s2.2.1 s2.2.2 30000000000 30000000000).2).length = 1 := by
  constructor
  · rfl
  · decide

/-- Claim C1, amended: on an engine whose bucket for `t`'s minute holds no
record with timestamp exactly `t` (in particular any freshly initialized
engine), `Store(t, v)` succeeds and `Get(t, t)` returns exactly one entry,
equal to `v` — for every timestamp, payload, root and cache state. -/
theorem store_then_get_singleton {T : Type} (encLen : Entry T → Nat) (c : Client T)
    (fs : FS T) (t : Nat) (v : T)
    (hclean : ∀ e ∈ (fsLookup fs (timeToPath c.Opts.Path (truncMinute t))).getD [],
      e.Time ≠ t) :
    (StoreOk encLen c fs t v).1 = none ∧
    (Get (StoreOk encLen c fs t v).2.1 (StoreOk encLen c fs t v).2.2 t t).2 = [v] := by
  simp only [storeOk_eq]
  refine ⟨trivial, ?_⟩
  show ((Find { c with Cache := setCache c.Cache (truncMinute t) }
    (fsAppend fs (timeToPath c.Opts.Path (truncMinute t)) ⟨t, v⟩) t t).2).map
      (fun e => e.Data) = [v]
  have hk : (truncMinute t + nsPerMinute - truncMinute t) / nsPerMinute = 1 := by
    unfold nsPerMinute
    omega
  show ((findLoop c.Opts.Path
    (fsAppend fs (timeToPath c.Opts.Path (truncMinute t)) ⟨t, v⟩) t t
    (setCache c.Cache (truncMinute t)) (truncMinute t)
    ((truncMinute t + nsPerMinute - truncMinute t) / nsPerMinute)).2).map
      (fun e => e.Data) = [v]
  rw [hk, findLoop_visits]
  have hrange : ((List.range 1).map (fun i => truncMinute t + i * nsPerMinute)) =
      [truncMinute t] := by
    rw [show List.range 1 = [0] from rfl, List.map_cons, List.map_nil, Nat.zero_mul,
      Nat.add_zero]
  rw [hrange, List.flatMap_cons]
  simp only [List.flatMap_nil, List.append_nil]
  rw [readFile_eq_filter, fsLookup_fsAppend_self]
  simp only [Option.getD_some]
  rw [List.filter_append]
  have hold : ((fsLookup fs (timeToPath c.Opts.Path (truncMinute t))).getD []).filter
      (fun e => decide (t ≤ e.Time ∧ e.Time ≤ t)) = [] := by
    rw [List.filter_eq_nil_iff]
    intro e he
    have := hclean e he
    simp only [decide_eq_true_eq, not_and]
    omega
  rw [hold, List.nil_append]
  simp

/-- Claim C1 witness: a fresh engine with root `"d"`, `t` = 30 seconds past
the zero time, payload `7`. -/
theorem store_then_get_singleton_witness :
    (StoreOk (fun _ => 1) (Init Nat ⟨false, false, [[100]]⟩ []) [] 30000000000 7).1 = none ∧
    (Get (StoreOk (fun _ => 1) (Init Nat ⟨false, false, [[100]]⟩ []) [] 30000000000 7).2.1
      (StoreOk (fun _ => 1) (Init Nat ⟨false, false, [[100]]⟩ []) [] 30000000000 7).2.2
      30000000000 30000000000).2 = [7] :=
  store_then_get_singleton (fun _ => 1) (Init Nat ⟨false, false, [[100]]⟩ []) []
    30000000000 7 (by simp [fsLookup])

/-- Claim C7: storing a batch of records with distinct timestamps that all
truncate to the same minute `m` into a fresh engine, then querying any range
`[lo, hi]` containing all of their timestamps, returns all of them, in store
order (the append order of the bucket's record stream). -/
theorem same_minute_batch_ordered {T : Type} (encLen : Entry T → Nat) (opts : Options)
    (L : List (Nat × T)) (m lo hi : Nat)
    (hm : ∀ tv ∈ L, truncMinute tv.1 = m)
    (hdistinct : (L.map Prod.fst).Pairwise (· ≠ ·))
    (hin : ∀ tv ∈ L, lo ≤ tv.1 ∧ tv.1 ≤ hi) :
    (Get (storeAll encLen (Init T opts []) [] L).1
      (storeAll encLen (Init T opts []) [] L).2 lo hi).2 = L.map Prod.snd := by
  have hvisits : ∀ (c : Client T) (fs : FS T), (Find c fs lo hi).2 =
      (scanMinutes lo hi).flatMap (fun mi => readFile fs (timeToPath c.Opts.Path mi) lo hi) := by
    intro c fs
    show (findLoop c.Opts.Path fs lo hi c.Cache (truncMinute lo)
      ((truncMinute hi + nsPerMinute - truncMinute lo) / nsPerMinute)).2 = _
    rw [findLoop_visits]
    rfl
  cases L with
  | nil =>
    show ((Find (Init T opts []) [] lo hi).2).map (fun e => e.Data) = []
    rw [hvisits]
    rw [List.flatMap_eq_nil_iff.mpr (fun mi _ => readFile_of_lookup_none [] _ lo hi rfl)]
    rfl
  | cons hd tl =>
    obtain ⟨t0, v0⟩ := hd
    have htm : truncMinute t0 = m := hm (t0, v0) (List.mem_cons_self _ _)
    have hmmin : truncMinute m = m := htm ▸ truncMinute_idem t0
    have hfs : (storeAll encLen (Init T opts []) [] ((t0, v0) :: tl)).2 =
        [(timeToPath opts.Path m, ((t0, v0) :: tl).map (fun tv => ⟨tv.1, tv.2⟩))] := by
      show (storeAll encLen (StoreOk encLen (Init T opts []) [] t0 v0).2.1
        (StoreOk encLen (Init T opts []) [] t0 v0).2.2 tl).2 = _
      rw [storeOk_eq]
      simp only
      have happ : fsAppend ([] : FS T) (timeToPath opts.Path (truncMinute t0)) ⟨t0, v0⟩ =
          [(timeToPath opts.Path m, [⟨t0, v0⟩])] := by
        rw [htm]
        rfl
      rw [show (Init T opts []).Opts = opts from rfl, happ]
      have := storeAll_same_minute encLen m tl
        ⟨setCache (Init T opts []).Cache (truncMinute t0), opts⟩
        [⟨t0, v0⟩] (fun tv htv => hm tv (List.mem_cons_of_mem _ htv))
      simp only at this ⊢
      rw [this]
      simp
    have hopts : (storeAll encLen (Init T opts []) [] ((t0, v0) :: tl)).1.Opts = opts :=
      storeAll_opts encLen _ _ _
    show ((Find (storeAll encLen (Init T opts []) [] ((t0, v0) :: tl)).1
      (storeAll encLen (Init T opts []) [] ((t0, v0) :: tl)).2 lo hi).2).map
        (fun e => e.Data) = _
    rw [hvisits, hfs, hopts]
    have hmem : m ∈ scanMinutes lo hi := by
      rw [mem_scanMinutes]
      have h0 := hin (t0, v0) (List.mem_cons_self _ _)
      refine ⟨hmmin, ?_, ?_⟩
      · calc truncMinute lo ≤ truncMinute t0 := truncMinute_mono lo t0 h0.1
          _ = m := htm
      · calc m = truncMinute t0 := htm.symm
          _ ≤ truncMinute hi := truncMinute_mono t0 hi h0.2
    have hflat : (scanMinutes lo hi).flatMap
        (fun mi => readFile [(timeToPath opts.Path m, ((t0, v0) :: tl).map (fun tv => ⟨tv.1, tv.2⟩))]
          (timeToPath opts.Path mi) lo hi) =
        readFile [(timeToPath opts.Path m, ((t0, v0) :: tl).map (fun tv => ⟨tv.1, tv.2⟩))]
          (timeToPath opts.Path m) lo hi := by
      apply flatMap_single _ _ m hmem
      · exact (scanMinutes_sorted lo hi).imp Nat.ne_of_lt
      · intro mi hmi hne
        apply readFile_of_lookup_none
        show (if timeToPath opts.Path m = timeToPath opts.Path mi then _ else _) = none
        rw [if_neg, show fsLookup ([] : FS T) (timeToPath opts.Path mi) = none from rfl]
        intro heq
        exact hne (timeToPath_inj opts.Path mi m
          ((mem_scanMinutes lo hi mi).mp hmi).1 hmmin heq.symm)
    rw [hflat, readFile_eq_filter]
    have hself : fsLookup [(timeToPath opts.Path m, ((t0, v0) :: tl).map (fun tv => ⟨tv.1, tv.2⟩))]
        (timeToPath opts.Path m) = some (((t0, v0) :: tl).map (fun tv => ⟨tv.1, tv.2⟩)) := by
      show (if timeToPath opts.Path m = timeToPath opts.Path m then _ else _) = _
      rw [if_pos rfl]
    rw [hself]
    simp only [Option.getD_some]
    have hfilter : (((t0, v0) :: tl).map (fun tv => (⟨tv.1, tv.2⟩ : Entry T))).filter
        (fun e => decide (lo ≤ e.Time ∧ e.Time ≤ hi)) =
        ((t0, v0) :: tl).map (fun tv => ⟨tv.1, tv.2⟩) := by
      rw [List.filter_eq_self]
      intro e he
      rcases List.mem_map.mp he with ⟨tv, htv, rfl⟩
      have := hin tv htv
      simp only [decide_eq_true_eq]
      exact this
    rw [hfilter, List.map_map]
    rfl

/-- Claim C7 witness: two records, one second apart, in the first minute of
the calendar, root `"d"`, queried over that whole minute. -/
theorem same_minute_batch_ordered_witness :
    (Get (storeAll (fun _ => 1) (Init Nat ⟨false, false, [[100]]⟩ []) []
        [(0, 10), (1000000000, 20)]).1
      (storeAll (fun _ => 1) (Init Nat ⟨false, false, [[100]]⟩ []) []
        [(0, 10), (1000000000, 20)]).2 0 59000000000).2 = [10, 20] :=
  same_minute_batch_ordered (fun _ => 1) ⟨false, false, [[100]]⟩
    [(0, 10), (1000000000, 20)] 0 0 59000000000
    (by decide) (by decide) (by decide)

/-- Claim C8: `Store` compares the reported written byte count against the
encoded record length.  When they differ it returns the integrity error and
the cache is left untouched (the `setCache` call is never reached); only
when they agree does it succeed, and the cache then reports the minute of
the truncated timestamp present. -/
theorem store_write_verification {T : Type} (encLen : Entry T → Nat) (c : Client T)
    (fs : FS T) (wrote date : Nat) (data : T) :
    (wrote ≠ encLen ⟨date, data⟩ →
      (Store encLen c fs wrote date data).1 =
        some "write verification failed: bytes written != encoded length" ∧
      (Store encLen c fs wrote date data).2.1.Cache = c.Cache) ∧
    (wrote = encLen ⟨date, data⟩ →
      (Store encLen c fs wrote date data).1 = none ∧
      getCache (Store encLen c fs wrote date data).2.1.Cache (truncMinute date) = true) := by
  constructor
  · intro h
    unfold Store
    rw [if_pos h]
    exact ⟨rfl, rfl⟩
  · intro h
    unfold Store
    rw [if_neg (not_ne_iff.mpr h)]
    exact ⟨rfl, getCache_setCache_self _ _⟩

/-- Claim C8 witness: with an encoded length of 5 bytes, a reported count of
3 yields the integrity error and an unchanged cache; a reported count of 5
succeeds and sets the cache for the minute. -/
theorem store_write_verification_witness :
    ((Store (fun _ => 5) (Init Nat ⟨false, false, [[100]]⟩ []) [] 3 0 7).1 =
        some "write verification failed: bytes written != encoded length" ∧
      (Store (fun _ => 5) (Init Nat ⟨false, false, [[100]]⟩ []) [] 3 0 7).2.1.Cache =
        (Init Nat ⟨false, false, [[100]]⟩ []).Cache) ∧
    ((Store (fun _ => 5) (Init Nat ⟨false, false, [[100]]⟩ []) [] 5 0 7).1 = none ∧
      getCache (Store (fun _ => 5) (Init Nat ⟨false, false, [[100]]⟩ []) []
        5 0 7).2.1.Cache (truncMinute 0) = true) :=
  ⟨(store_write_verification (fun _ => 5) (Init Nat ⟨false, false, [[100]]⟩ []) []
      3 0 7).1 (by decide),
    (store_write_verification (fun _ => 5) (Init Nat ⟨false, false, [[100]]⟩ []) []
      5 0 7).2 (by decide)⟩

/-- Claim C3: `Delete lo hi` acts on exactly the half-open minute window
`[truncate lo, truncate hi)`: every cached bucket in that window is removed
from the filesystem; any path that is not a cached window bucket's path is
untouched; in particular the bucket of `truncate hi` itself is never
removed. -/
theorem delete_halfopen_window {T : Type} (c : Client T) (fs : FS T) (lo hi : Nat) :
    (∀ m, truncMinute m = m → truncMinute lo ≤ m → m < truncMinute hi →
      getCache c.Cache m = true →
      fsLookup (Delete c fs lo hi).2 (timeToPath c.Opts.Path m) = none) ∧
    (∀ p, (∀ m, truncMinute m = m → truncMinute lo ≤ m → m < truncMinute hi →
        getCache c.Cache m = true → p ≠ timeToPath c.Opts.Path m) →
      fsLookup (Delete c fs lo hi).2 p = fsLookup fs p) ∧
    fsLookup (Delete c fs lo hi).2 (timeToPath c.Opts.Path (truncMinute hi)) =
      fsLookup fs (timeToPath c.Opts.Path (truncMinute hi)) := by
  have hdel : (Delete c fs lo hi).2 = (deleteLoop c.Opts.Path c.Cache fs (truncMinute lo)
      ((truncMinute hi - truncMinute lo) / nsPerMinute)).2 := rfl
  have hremoved : ∀ m, truncMinute m = m → truncMinute lo ≤ m → m < truncMinute hi →
      getCache c.Cache m = true →
      fsLookup (Delete c fs lo hi).2 (timeToPath c.Opts.Path m) = none := by
    intro m hm hlo hhi hc
    obtain ⟨i, hik, rfl⟩ := (delete_window_index lo hi m).mp ⟨hm, hlo, hhi⟩
    rw [hdel]
    exact deleteLoop_removes c.Opts.Path _ c.Cache fs _ i hik hc
  have hpreserved : ∀ p, (∀ m, truncMinute m = m → truncMinute lo ≤ m →
      m < truncMinute hi → getCache c.Cache m = true → p ≠ timeToPath c.Opts.Path m) →
      fsLookup (Delete c fs lo hi).2 p = fsLookup fs p := by
    intro p hp
    rw [hdel]
    apply deleteLoop_preserves
    intro i hik hci
    have hwin := (delete_window_index lo hi (truncMinute lo + i * nsPerMinute)).mpr
      ⟨i, hik, rfl⟩
    exact hp _ hwin.1 hwin.2.1 hwin.2.2 hci
  refine ⟨hremoved, hpreserved, ?_⟩
  apply hpreserved
  intro m hm hlo hhi _ heq
  have : truncMinute hi = m :=
    timeToPath_inj c.Opts.Path (truncMinute hi) m (truncMinute_idem hi) hm heq
  omega

/-- Claim C3 witness: root `"d"`, buckets at minutes 0 and 1 with the year
cached; `Delete(0, 1min)` removes the bucket of minute 0 and leaves the
bucket of `truncate(to)` = minute 1 untouched. -/
theorem delete_halfopen_window_witness :
    fsLookup (Delete (⟨[1], ⟨false, false, [[100]]⟩⟩ : Client Nat)
        [(timeToPath [[100]] 0, [⟨0, 5⟩]), (timeToPath [[100]] 60000000000, [⟨60000000000, 6⟩])]
        0 60000000000).2 (timeToPath [[100]] 0) = none ∧
    fsLookup (Delete (⟨[1], ⟨false, false, [[100]]⟩⟩ : Client Nat)
        [(timeToPath [[100]] 0, [⟨0, 5⟩]), (timeToPath [[100]] 60000000000, [⟨60000000000, 6⟩])]
        0 60000000000).2 (timeToPath [[100]] 60000000000) =
      fsLookup [(timeToPath [[100]] 0, [⟨0, 5⟩]),
        (timeToPath [[100]] 60000000000, [⟨60000000000, 6⟩])]
        (timeToPath [[100]] 60000000000) :=
  ⟨(delete_halfopen_window (⟨[1], ⟨false, false, [[100]]⟩⟩ : Client Nat)
      [(timeToPath [[100]] 0, [⟨0, 5⟩]), (timeToPath [[100]] 60000000000, [⟨60000000000, 6⟩])]
      0 60000000000).1 0 (by decide) (by decide) (by decide) (by decide),
    (delete_halfopen_window (⟨[1], ⟨false, false, [[100]]⟩⟩ : Client Nat)
      [(timeToPath [[100]] 0, [⟨0, 5⟩]), (timeToPath [[100]] 60000000000, [⟨60000000000, 6⟩])]
      0 60000000000).2.2⟩

/-- Claim C2, code bug: after `Store` at the zero minute and
`Delete(0, 1min)`, the bucket file of minute 0 is removed from the
filesystem, yet the cache still reports the minute present
(`getCache = true`): `Delete` calls `setCache` after removing the bucket
instead of clearing the bit, so the cache does not reflect that the bucket
no longer exists.  (The sibling implementations in this repository call a
`removeFromCache` here, confirming the intent the claim states.) -/
theorem delete_leaves_cache_bit_set :
    (let el : Entry Nat → Nat := fun _ => 1
     let c0 := Init Nat ⟨false, false, [[100]]⟩ ([] : FS Nat)
     let s := StoreOk el c0 [] 0 42
     let d := Delete s.2.1 s.2.2 0 nsPerMinute
     fsLookup d.2 (timeToPath [[100]] 0) = none ∧ getCache d.1.Cache 0 = true) := by
  decide

/-- Claim C9, counterexample: with an empty root path, `Init` succeeds with
an empty cache, but `Store` is not a no-op with respect to persistent
storage: starting from an empty filesystem, `Store(0, 7)` returns success,
the filesystem is no longer empty (a bucket file at the root-less path
`0001/01/01/00/00.cbor`, i.e. relative to the process working directory, now
exists), and `Get(0, 0)` retrieves the stored value. -/
theorem empty_path_store_writes :
    (let c0 := Init Nat ⟨false, false, []⟩ ([] : FS Nat)
     let s := StoreOk (fun _ => 1) c0 [] 0 7
     s.1 = none ∧ s.2.2 ≠ ([] : FS Nat) ∧ (Get s.2.1 s.2.2 0 0).2 = [7]) := by
  decide

/-- Claim C9, amended: initializing with an empty root path succeeds and
yields an engine holding an empty cache (the directory walk is skipped), but
the subsequent operations are not no-ops with respect to persistent storage:
`Store` succeeds and appends its record to a bucket file whose path carries
no root prefix (resolved relative to the process working directory). -/
theorem empty_path_engine_behavior {T : Type} (encLen : Entry T → Nat) (opts : Options)
    (disk fs : FS T) (t : Nat) (v : T) (hpath : opts.Path = []) :
    (Init T opts disk).Cache = [] ∧
    (StoreOk encLen (Init T opts disk) fs t v).1 = none ∧
    fsLookup (StoreOk encLen (Init T opts disk) fs t v).2.2
        (timeToPath [] (truncMinute t)) =
      some ((fsLookup fs (timeToPath [] (truncMinute t))).getD [] ++ [⟨t, v⟩]) := by
  have hop : (Init T opts disk).Opts.Path = ([] : FsPath) := hpath
  refine ⟨?_, ?_, ?_⟩
  · unfold Init
    rw [hpath]
    simp
  · rw [storeOk_eq]
  · rw [storeOk_eq]
    simp only
    rw [hop, fsLookup_fsAppend_self]

/-- Claim C9 witness: empty path, empty disk and filesystem, `t = 0`,
payload `7`. -/
theorem empty_path_engine_behavior_witness :
    (Init Nat ⟨false, false, []⟩ []).Cache = [] ∧
    (StoreOk (fun _ => 1) (Init Nat ⟨false, false, []⟩ []) [] 0 7).1 = none ∧
    fsLookup (StoreOk (fun _ => 1) (Init Nat ⟨false, false, []⟩ []) [] 0 7).2.2
        (timeToPath [] (truncMinute 0)) =
      some ((fsLookup ([] : FS Nat) (timeToPath [] (truncMinute 0))).getD [] ++ [⟨0, 7⟩]) :=
  empty_path_engine_behavior (fun _ => 1) ⟨false, false, []⟩ [] [] 0 7 rfl

/-- Claim C6 witness: empty cache, a bucket on disk at minute 0 holding one
record at `t = 1000`; the scan over `[0, 2000]` reads it and reconciles the
cache. -/
theorem find_cache_fallback_witness :
    getCache (Find (⟨[], ⟨false, false, [[100]]⟩⟩ : Client Nat)
      [(timeToPath [[100]] 0, [⟨1000, 5⟩])] 0 2000).1.Cache 0 = true ∧
    (⟨1000, 5⟩ : Entry Nat) ∈ (Find (⟨[], ⟨false, false, [[100]]⟩⟩ : Client Nat)
      [(timeToPath [[100]] 0, [⟨1000, 5⟩])] 0 2000).2 := by
  have h := find_cache_fallback (⟨[], ⟨false, false, [[100]]⟩⟩ : Client Nat)
    [(timeToPath [[100]] 0, [⟨1000, 5⟩])] 0 2000 0 [⟨1000, 5⟩]
    (by decide) (by decide) (by decide) (by decide) (by decide)
  exact ⟨h.1, h.2 ⟨1000, 5⟩ (by decide) (by decide) (by decide)⟩

/-- Claim C10 witness: a populated bucket at minute 0, queried with the
inverted range `lo` = 2 minutes, `hi` = 0. -/
theorem inverted_range_empty_witness :
    (Find (Init Nat ⟨false, false, [[100]]⟩ []) [(timeToPath [[100]] 0, [⟨0, 3⟩])]
      120000000000 0).2 = [] ∧
    (Get (Init Nat ⟨false, false, [[100]]⟩ []) [(timeToPath [[100]] 0, [⟨0, 3⟩])]
      120000000000 0).2 = [] :=
  inverted_range_empty (Init Nat ⟨false, false, [[100]]⟩ [])
    [(timeToPath [[100]] 0, [⟨0, 3⟩])] 120000000000 0 (by decide)

end Timeseries
